import Mathlib

/-!
Verification of the `planner` repository (`src/operators.py`).

The development shallowly embeds the code:

* `Value` models the Python field values the repository stores in a
  `State`'s `__dict__` (hashable atoms and tuples, plus a mutable,
  unhashable container used only to exercise the hashability check).
  Tuples are encoded as right-nested pairs ending in `Value.vNil`.
* `PyState` models `operators.State`: a single attribute dictionary that
  also holds the control fields `__visitmarker`, `__isfrozen` and
  `__hash_value`, exactly as the Python object holds them in `__dict__`.
  The cached `__hash_value` is modelled as the sorted tuple of filtered
  items itself (the Python code stores that tuple's integer hash; nothing
  in the program observes the integer beyond set membership, which is
  decided by `__eq__`).
* The `Search` namespace embeds `Planner.plan` generically over a state
  type `S` together with the operations `plan` actually performs on
  states: the equality used by the seen-set and the goal test, the
  freeze performed by hashing, and `set_visit_marker`.  The Python
  `while` loop is given explicit fuel; `Outcome.outOfFuel` marks runs
  the fuel could not finish and is distinct from the source's `None`
  result (`Outcome.exhausted`).
-/

/-- Python field values, as used by `operators.State`.  `vPair`/`vNil`
encode tuples as right-nested pairs; `vMutList` models a mutable (hence
unhashable) container such as a Python `list`. -/
inductive Value where
  | vInt (n : Int)
  | vStr (s : String)
  | vBool (b : Bool)
  | vNil
  | vPair (a b : Value)
  | vMutList (a : Value)
deriving DecidableEq, Repr

/-- `State._is_hashable`: tuples are hashable when their components are;
mutable containers never are. -/
def isHashable : Value → Bool
  | .vInt _ => true
  | .vStr _ => true
  | .vBool _ => true
  | .vNil => true
  | .vPair a b => isHashable a && isHashable b
  | .vMutList _ => false

/-- Python truthiness of a `Value` (used by `is_frozen`'s
`getattr(self, '__isfrozen')` test). -/
def pyTruthy : Value → Bool
  | .vInt n => n ≠ 0
  | .vStr s => s ≠ ""
  | .vBool b => b
  | .vNil => false
  | .vPair _ _ => true
  | .vMutList _ => true

/-- An attribute dictionary: insertion-ordered key/value pairs, as in a
Python `__dict__`. -/
abbrev Dict := List (String × Value)

/-- Dictionary lookup (first matching key). -/
def dget (k : String) : Dict → Option Value
  | [] => none
  | p :: rest => if p.1 = k then some p.2 else dget k rest

/-- `d[k] = v`: replace the value in place if the key is present
(Python dicts keep the key's position), else append. -/
def dinsert (k : String) (v : Value) : Dict → Dict
  | [] => [(k, v)]
  | p :: rest => if p.1 = k then (p.1, v) :: rest else p :: dinsert k v rest

/-- The keys of a dictionary. -/
def dkeys (d : Dict) : List String := d.map (·.1)

/-- Python `dict.__eq__`: the two dictionaries map every key to the same
value (order-insensitive). -/
def dEq (d1 d2 : Dict) : Bool :=
  (dkeys d1 ++ dkeys d2).all fun k => dget k d1 == dget k d2

/-- The three bookkeeping keys removed by `State.filter_control_fields`. -/
def isControlKey (k : String) : Bool :=
  k = "__visitmarker" || k = "__isfrozen" || k = "__hash_value"

/-- `State.filter_control_fields`: drop the bookkeeping entries. -/
def filterControl (d : Dict) : Dict :=
  d.filter fun p => !isControlKey p.1

/-- Insert an item into a key-sorted list (used to model Python's
`sorted(...)` over dictionary items; keys in a dict are distinct, so
sorting by key alone matches sorting the pairs). -/
def insertByKey (p : String × Value) : Dict → Dict
  | [] => [p]
  | q :: rest => if p.1 ≤ q.1 then p :: q :: rest else q :: insertByKey p rest

/-- Sort dictionary items by key. -/
def sortByKey : Dict → Dict := List.foldr insertByKey []

/-- `operators.State`: an object whose whole observable content is its
`__dict__`. -/
structure PyState where
  dict : Dict
deriving DecidableEq, Repr

/-- `State.__eq__`: compare the filtered dictionaries. -/
def pyBeq (a b : PyState) : Bool :=
  dEq (filterControl a.dict) (filterControl b.dict)

/-- `State.is_frozen`. -/
def PyState.is_frozen (s : PyState) : Bool :=
  match dget "__isfrozen" s.dict with
  | some v => pyTruthy v
  | none => false

/-- The value `State.freeze` hashes: the key-sorted tuple of the filtered
items, encoded as a nested-pair tuple. -/
def hashItemsEnc (d : Dict) : Value :=
  (sortByKey (filterControl d)).foldr
    (fun p acc => .vPair (.vPair (.vStr p.1) p.2) acc) .vNil

/-- `State.freeze`: a no-op when frozen, otherwise cache the hash source
and set the frozen flag (in that order, as the source does). -/
def PyState.freeze (s : PyState) : PyState :=
  if s.is_frozen then s
  else ⟨dinsert "__isfrozen" (.vBool true)
          (dinsert "__hash_value" (hashItemsEnc s.dict) s.dict)⟩

/-- `State.set_visit_marker`: writes straight into `__dict__`, bypassing
`__setattr__`, so it succeeds even on frozen states. -/
def PyState.set_visit_marker (s : PyState) (m : String) : PyState :=
  ⟨dinsert "__visitmarker" (.vStr m) s.dict⟩

/-- `State.has_visit_marker`. -/
def PyState.has_visit_marker (s : PyState) : Bool :=
  (dget "__visitmarker" s.dict).isSome

/-- `State.get_visit_marker`. -/
def PyState.get_visit_marker (s : PyState) : Option Value :=
  dget "__visitmarker" s.dict

/-- `State.copy`: deep copy, then delete the control fields in place. -/
def PyState.copy (s : PyState) : PyState :=
  ⟨filterControl s.dict⟩

/-- The two error kinds `State.__setattr__` can raise. -/
inductive PyError where
  | attributeError
  | typeError
deriving DecidableEq, Repr

/-- `State.__setattr__`: frozen states reject every key except
`__visitmarker` and `__dict__`; then the value must be hashable; then
the entry is written into `__dict__`. -/
def pySetattr (s : PyState) (key : String) (v : Value) : Except PyError PyState :=
  if s.is_frozen && key != "__visitmarker" && key != "__dict__" then
    .error .attributeError
  else if !isHashable v then
    .error .typeError
  else
    .ok ⟨dinsert key v s.dict⟩

namespace Search

/-- `operators.Operator` (primitive): an applicability predicate and an
application producing successor states with action labels.  Compound
operators, which `Planner._makeNextStates` rejects with an error, are
outside the embedding. -/
structure Op (S : Type) where
  canApply : S → Bool
  apply : S → List (S × String)

/-- One `Planner` object viewed as a search node: its current state and
the accumulated action descriptions. -/
structure Node (S : Type) where
  state : S
  description : List String
deriving DecidableEq, Repr

/-- Everything `Planner.plan` uses about states: the equality backing the
seen-set and goal test (`State.__eq__`), the goal test
(`self.end_state == q.state`, which may be a custom equality), the
freeze that hashing triggers, the visit-marker write, and the operator
list. -/
structure Cfg (S : Type) where
  beq : S → S → Bool
  goalB : S → Bool
  freezeFn : S → S
  markFn : String → S → S
  ops : List (Op S)

variable {S : Type}

/-- `q.state in seen_states`: some stored element compares equal to the
probe. -/
def memSeen (cfg : Cfg S) (seen : List S) (s : S) : Bool :=
  seen.any fun t => cfg.beq t s

/-- `Planner._makeNextStates` (primitive operators only): for each
operator in registration order, if applicable, apply it and freeze every
successor. -/
def makeNextStates (cfg : Cfg S) (s : S) : List (S × String) :=
  (cfg.ops.map fun op =>
    if op.canApply s then (op.apply s).map (fun p => (cfg.freezeFn p.1, p.2)) else []).flatten

/-- `Planner._apply`: wrap each successor in a child node extending the
parent's description. -/
def childNodes (cfg : Cfg S) (q : Node S) : List (Node S) :=
  (makeNextStates cfg q.state).map fun p => ⟨p.1, q.description ++ [p.2]⟩

/-- The first loop of a `plan` generation (source lines 203–224): each
frontier node is hashed for the seen-set test (which freezes its state);
unseen ones increment the step counter and receive it as visit marker.
`seen_states` is not updated here, so equal duplicates within one
generation are each counted. -/
def pass1 (cfg : Cfg S) : List (Node S) → List S → Nat → List (Node S) × Nat
  | [], _, steps => ([], steps)
  | q :: rest, seen, steps =>
    if memSeen cfg seen q.state then
      let r := pass1 cfg rest seen steps
      (⟨cfg.freezeFn q.state, q.description⟩ :: r.1, r.2)
    else
      let r := pass1 cfg rest seen (steps + 1)
      (⟨cfg.markFn (toString (steps + 1)) (cfg.freezeFn q.state), q.description⟩ :: r.1, r.2)

/-- Result of the second loop of a generation. -/
structure Pass2Result (S : Type) where
  endResult : Option (Node S)
  newQueue : List (Node S)
  seen : List S
  expanded : List S
deriving Repr

/-- The second loop of a `plan` generation (source lines 226–237): each
still-unseen node is goal-tested (only while `end_result` is unset),
added to the seen-set, and expanded; its children are appended to
`new_queue`.  `expanded` records each state passed to `_apply`, in
order. -/
def pass2 (cfg : Cfg S) :
    List (Node S) → List S → Option (Node S) → List (Node S) → List S → Pass2Result S
  | [], seen, endr, acc, exp => ⟨endr, acc, seen, exp⟩
  | q :: rest, seen, endr, acc, exp =>
    if memSeen cfg seen q.state then pass2 cfg rest seen endr acc exp
    else
      let endr' := if endr.isNone && cfg.goalB q.state then some q else endr
      pass2 cfg rest (q.state :: seen) endr' (acc ++ childNodes cfg q) (exp ++ [q.state])

/-- The mutable state of the `plan` loop. -/
structure LoopState (S : Type) where
  queue : List (Node S)
  seen : List S
  steps : Nat
  expanded : List S
deriving Repr

/-- One iteration of the `while` loop: pass 1 then pass 2. -/
def genStep (cfg : Cfg S) (ls : LoopState S) : Option (Node S) × LoopState S :=
  let p1 := pass1 cfg ls.queue ls.seen ls.steps
  let p2 := pass2 cfg p1.1 ls.seen none [] []
  (p2.endResult, ⟨p2.newQueue, p2.seen, p1.2, ls.expanded ++ p2.expanded⟩)

/-- How a run ends: `solved` (a result node is returned), `exhausted`
(the frontier emptied; Python returns `None`), or `outOfFuel` (the
embedding's fuel ran out before the loop finished). -/
inductive Outcome (S : Type) where
  | solved : Node S → Outcome S
  | exhausted : Outcome S
  | outOfFuel : Outcome S
deriving Repr

/-- The observable result of a run: the outcome plus the final step
counter, seen-set and expansion log. -/
structure PlanResult (S : Type) where
  outcome : Outcome S
  steps : Nat
  seen : List S
  expanded : List S
deriving Repr

/-- `while len(queue): ...` with explicit fuel.  The emptiness test comes
first, as in the source, so a genuinely exhausted frontier reports
`exhausted` at any fuel. -/
def planLoop (cfg : Cfg S) : Nat → LoopState S → PlanResult S
  | 0, ls =>
    match ls.queue with
    | [] => ⟨.exhausted, ls.steps, ls.seen, ls.expanded⟩
    | _ :: _ => ⟨.outOfFuel, ls.steps, ls.seen, ls.expanded⟩
  | f + 1, ls =>
    match ls.queue with
    | [] => ⟨.exhausted, ls.steps, ls.seen, ls.expanded⟩
    | _ :: _ =>
      match (genStep cfg ls).1 with
      | some n => ⟨.solved n, (genStep cfg ls).2.steps, (genStep cfg ls).2.seen,
          (genStep cfg ls).2.expanded⟩
      | none => planLoop cfg f (genStep cfg ls).2

/-- `plan`'s initialisation: `self.steps = 0; queue = [self];
seen_states = set()`. -/
def startLoopState (start : S) : LoopState S :=
  ⟨[⟨start, []⟩], [], 0, []⟩

/-- `Planner.plan` on a root planner whose description is empty. -/
def plan (cfg : Cfg S) (start : S) (fuel : Nat) : PlanResult S :=
  planLoop cfg fuel (startLoopState start)

/-- The loop state at the beginning of generation `g`, when the run gets
that far without returning. -/
def loopStateAt (cfg : Cfg S) (start : S) : Nat → Option (LoopState S)
  | 0 => some (startLoopState start)
  | g + 1 =>
    match loopStateAt cfg start g with
    | none => none
    | some ls =>
      match ls.queue with
      | [] => none
      | _ :: _ =>
        match genStep cfg ls with
        | (some _, _) => none
        | (none, ls') => some ls'

/-- The first node of the marked frontier that is unseen and satisfies
the goal test, skipping nodes whose states duplicate earlier unseen ones
(this is what `pass2` returns as `end_result`). -/
def firstUnseenGoal (cfg : Cfg S) : List (Node S) → List S → Option (Node S)
  | [], _ => none
  | q :: rest, seen =>
    if memSeen cfg seen q.state then firstUnseenGoal cfg rest seen
    else if cfg.goalB q.state then some q
    else firstUnseenGoal cfg rest (q.state :: seen)

/-- The two concrete `SearchStrategy` subclasses. -/
inductive SearchStrategyKind where
  | breadthFirst
  | depthFirst
deriving DecidableEq, Repr

/-- `BreadthFirstSearchStrategy`: a deque used FIFO. -/
structure BreadthFirstSearchStrategy (S : Type) where
  queue : List S

/-- `BreadthFirstSearchStrategy.add_state`: append right. -/
def BreadthFirstSearchStrategy.add_state (st : BreadthFirstSearchStrategy S) (s : S) :
    BreadthFirstSearchStrategy S :=
  ⟨st.queue ++ [s]⟩

/-- `BreadthFirstSearchStrategy.pop_next_state`: pop left; `none` models
the `IndexError` on an empty deque. -/
def BreadthFirstSearchStrategy.pop_next_state (st : BreadthFirstSearchStrategy S) :
    Option (S × BreadthFirstSearchStrategy S) :=
  match st.queue with
  | [] => none
  | x :: rest => some (x, ⟨rest⟩)

/-- `DepthFirstSearchStrategy`: a deque used LIFO. -/
structure DepthFirstSearchStrategy (S : Type) where
  stack : List S

/-- `DepthFirstSearchStrategy.add_state`: append right. -/
def DepthFirstSearchStrategy.add_state (st : DepthFirstSearchStrategy S) (s : S) :
    DepthFirstSearchStrategy S :=
  ⟨st.stack ++ [s]⟩

/-- `DepthFirstSearchStrategy.pop_next_state`: pop right. -/
def DepthFirstSearchStrategy.pop_next_state (st : DepthFirstSearchStrategy S) :
    Option (S × DepthFirstSearchStrategy S) :=
  match st.stack.reverse with
  | [] => none
  | x :: rest => some (x, ⟨rest.reverse⟩)

/-- The `Planner` object as constructed: `plan`'s configuration plus the
stored `search_strategy` (which, in the source, `plan` never reads). -/
structure PyPlanner (S : Type) extends Cfg S where
  searchStrategy : SearchStrategyKind

/-- `Planner.plan` as invoked on a constructed planner. -/
def PyPlanner.plan (p : PyPlanner S) (start : S) (fuel : Nat) : PlanResult S :=
  Search.plan p.toCfg start fuel

/-- Paths realizable through the planner's own transition function
`_makeNextStates` (successors are frozen, as the planner freezes them),
up to the equality the planner itself uses on states. -/
inductive Reach (cfg : Cfg S) (start : S) : Nat → S → Prop where
  | refl : Reach cfg start 0 start
  | step {n : Nat} {s s' t : S} {d : String} :
      Reach cfg start n s → cfg.beq s s' = true →
      (t, d) ∈ makeNextStates cfg s' → Reach cfg start (n + 1) t

end Search

open Search

/-! ### The counter scenario (`PlannerTest.test_tiny_smoke_test`) -/

/-- The `AddN` operator of the smoke test: always applicable; copies the
state, adds `n` to its `counter` field and yields it with label
`"add n"`.  (In every state the planner feeds it, `counter` is an
integer; the `0` fallback is unreachable there.) -/
def counterOp (n : Int) : Op PyState where
  canApply := fun _ => true
  apply := fun s =>
    let c := s.copy
    let k : Int := match dget "counter" c.dict with
      | some (.vInt k) => k
      | _ => 0
    [(⟨dinsert "counter" (.vInt (k + n)) c.dict⟩, "add " ++ toString n)]

/-- The smoke test's start state `{counter: 0}`. -/
def counterStart : PyState := ⟨[("counter", .vInt 0)]⟩

/-- The smoke test's goal state `{counter: 5}`. -/
def counterEnd : PyState := ⟨[("counter", .vInt 5)]⟩

/-- The smoke test's planner: `Planner(start, [AddN(1), AddN(2)], end,
BreadthFirstSearchStrategy())`. -/
def counterPlanner : PyPlanner PyState where
  beq := pyBeq
  goalB := fun s => pyBeq counterEnd s
  freezeFn := PyState.freeze
  markFn := fun m s => s.set_visit_marker m
  ops := [counterOp 1, counterOp 2]
  searchStrategy := .breadthFirst

/-- The same planner constructed with the depth-first strategy. -/
def counterPlannerDFS : PyPlanner PyState :=
  { counterPlanner with searchStrategy := .depthFirst }

/-- The node a run returned, when it returned one (`plan`'s non-`None`
result). -/
def Search.Outcome.resultNode {S : Type} : Outcome S → Option (Node S)
  | .solved n => some n
  | .exhausted => none
  | .outOfFuel => none

/-! Small finite fixtures used to instantiate the general theorems at
concrete inputs. -/

/-- A toy operator on `Fin 4`: always applicable, one successor
(increment mod 4), labelled `"inc"`. -/
def incOp : Op (Fin 4) where
  canApply := fun _ => true
  apply := fun s => [(s + 1, "inc")]

/-- A toy planner over `Fin 4`: goal state `2`, one `incOp` operator,
trivial freeze/mark, Breadth-First strategy. -/
def incPlanner : PyPlanner (Fin 4) where
  beq := fun a b => a == b
  goalB := fun s => s == 2
  freezeFn := id
  markFn := fun _ s => s
  ops := [incOp]
  searchStrategy := .breadthFirst

/-- A toy configuration over `Fin 3` with no operators and the
unreachable goal state `2`. -/
def noOpCfg : Cfg (Fin 3) where
  beq := fun a b => a == b
  goalB := fun s => s == 2
  freezeFn := id
  markFn := fun _ s => s
  ops := []

/-! ### Dictionary lemmas -/

lemma dget_eq_none_of_not_mem {k : String} {d : Dict} (h : k ∉ dkeys d) :
    dget k d = none := by
  induction d with
  | nil => rfl
  | cons p rest ih =>
    have h1 : ¬p.1 = k := by
      intro e
      exact h (by rw [← e]; exact List.mem_cons_self _ _)
    have h2 : k ∉ dkeys rest := by
      intro hm
      exact h (List.mem_cons_of_mem _ hm)
    rw [dget, if_neg h1]
    exact ih h2

lemma dEq_iff {d1 d2 : Dict} : dEq d1 d2 = true ↔ ∀ k, dget k d1 = dget k d2 := by
  constructor
  · intro h k
    rw [dEq, List.all_eq_true] at h
    by_cases hk : k ∈ dkeys d1 ++ dkeys d2
    · have := h k hk
      simpa using this
    · rw [List.mem_append] at hk
      push_neg at hk
      rw [dget_eq_none_of_not_mem hk.1, dget_eq_none_of_not_mem hk.2]
  · intro h
    rw [dEq, List.all_eq_true]
    intro k _
    simp [h k]

lemma dEq_refl (d : Dict) : dEq d d = true :=
  dEq_iff.mpr fun _ => rfl

lemma dEq_symm {d1 d2 : Dict} (h : dEq d1 d2 = true) : dEq d2 d1 = true :=
  dEq_iff.mpr fun k => (dEq_iff.mp h k).symm

lemma dEq_trans {d1 d2 d3 : Dict} (h1 : dEq d1 d2 = true) (h2 : dEq d2 d3 = true) :
    dEq d1 d3 = true :=
  dEq_iff.mpr fun k => (dEq_iff.mp h1 k).trans (dEq_iff.mp h2 k)

lemma dget_dinsert_self (k : String) (v : Value) (d : Dict) :
    dget k (dinsert k v d) = some v := by
  induction d with
  | nil => simp [dinsert, dget]
  | cons p rest ih =>
    by_cases hp : p.1 = k
    · simp [dinsert, dget, hp]
    · simp [dinsert, dget, hp, ih]

lemma dget_dinsert_ne {k' k : String} (h : k' ≠ k) (v : Value) (d : Dict) :
    dget k (dinsert k' v d) = dget k d := by
  induction d with
  | nil => simp [dinsert, dget, h]
  | cons p rest ih =>
    by_cases hp : p.1 = k'
    · simp only [dinsert, if_pos hp, dget]
      rw [if_neg (by rw [hp]; exact h), if_neg (by rw [hp]; exact h)]
    · simp only [dinsert, if_neg hp, dget]
      by_cases hk : p.1 = k
      · rw [if_pos hk, if_pos hk]
      · rw [if_neg hk, if_neg hk, ih]

lemma filterControl_cons_control {p : String × Value} (h : isControlKey p.1 = true)
    (d : Dict) : filterControl (p :: d) = filterControl d := by
  rw [filterControl, filterControl, List.filter_cons, h]
  rfl

lemma filterControl_cons_noncontrol {p : String × Value} (h : isControlKey p.1 = false)
    (d : Dict) : filterControl (p :: d) = p :: filterControl d := by
  rw [filterControl, filterControl, List.filter_cons, h]
  rfl

lemma filterControl_idem (d : Dict) : filterControl (filterControl d) = filterControl d := by
  induction d with
  | nil => rfl
  | cons p rest ih =>
    by_cases hc : isControlKey p.1
    · rw [filterControl_cons_control hc, ih]
    · rw [filterControl_cons_noncontrol (Bool.eq_false_iff.mpr hc),
        filterControl_cons_noncontrol (Bool.eq_false_iff.mpr hc), ih]

lemma dget_filterControl_control {k : String} (h : isControlKey k = true) (d : Dict) :
    dget k (filterControl d) = none := by
  induction d with
  | nil => rfl
  | cons p rest ih =>
    by_cases hc : isControlKey p.1
    · rw [filterControl_cons_control hc]
      exact ih
    · have hne : ¬p.1 = k := fun e => by rw [e, h] at hc; exact hc rfl
      rw [filterControl_cons_noncontrol (Bool.eq_false_iff.mpr hc), dget, if_neg hne]
      exact ih

lemma dget_filterControl_noncontrol {k : String} (h : isControlKey k = false) (d : Dict) :
    dget k (filterControl d) = dget k d := by
  induction d with
  | nil => rfl
  | cons p rest ih =>
    by_cases hc : isControlKey p.1
    · have hne : ¬p.1 = k := fun e => by rw [e, h] at hc; exact Bool.false_ne_true hc
      rw [filterControl_cons_control hc, dget, if_neg hne]
      exact ih
    · by_cases hk : p.1 = k
      · rw [filterControl_cons_noncontrol (Bool.eq_false_iff.mpr hc), dget, if_pos hk,
          dget, if_pos hk]
      · rw [filterControl_cons_noncontrol (Bool.eq_false_iff.mpr hc), dget, if_neg hk,
          dget, if_neg hk]
        exact ih

lemma filterControl_dinsert_control {k : String} (h : isControlKey k = true)
    (v : Value) (d : Dict) : filterControl (dinsert k v d) = filterControl d := by
  induction d with
  | nil =>
    show filterControl [(k, v)] = filterControl []
    rw [filterControl_cons_control h]
  | cons p rest ih =>
    by_cases hp : p.1 = k
    · have hc : isControlKey p.1 = true := by rw [hp]; exact h
      rw [dinsert, if_pos hp]
      rw [filterControl_cons_control (p := (p.1, v)) hc, filterControl_cons_control hc]
    · rw [dinsert, if_neg hp]
      by_cases hc : isControlKey p.1
      · rw [filterControl_cons_control hc, filterControl_cons_control hc]
        exact ih
      · rw [filterControl_cons_noncontrol (Bool.eq_false_iff.mpr hc),
          filterControl_cons_noncontrol (Bool.eq_false_iff.mpr hc), ih]

/-! ### `PyState` lemmas -/

lemma pyBeq_iff {a b : PyState} :
    pyBeq a b = true ↔ ∀ k, dget k (filterControl a.dict) = dget k (filterControl b.dict) :=
  dEq_iff

lemma pyBeq_refl (a : PyState) : pyBeq a a = true := dEq_refl _

lemma pyBeq_symm {a b : PyState} (h : pyBeq a b = true) : pyBeq b a = true := dEq_symm h

lemma pyBeq_trans {a b c : PyState} (h1 : pyBeq a b = true) (h2 : pyBeq b c = true) :
    pyBeq a c = true := dEq_trans h1 h2

lemma filterControl_freeze (s : PyState) :
    filterControl s.freeze.dict = filterControl s.dict := by
  rw [PyState.freeze]
  by_cases h : s.is_frozen
  · rw [if_pos h]
  · rw [if_neg h]
    show filterControl (dinsert "__isfrozen" _ (dinsert "__hash_value" _ s.dict)) = _
    rw [filterControl_dinsert_control (by rfl), filterControl_dinsert_control (by rfl)]

lemma filterControl_set_visit_marker (s : PyState) (m : String) :
    filterControl (s.set_visit_marker m).dict = filterControl s.dict := by
  show filterControl (dinsert "__visitmarker" _ s.dict) = _
  rw [filterControl_dinsert_control (by rfl)]

lemma pyBeq_freeze (s : PyState) : pyBeq s.freeze s = true := by
  rw [pyBeq, filterControl_freeze]; exact dEq_refl _

lemma pyBeq_set_visit_marker (s : PyState) (m : String) :
    pyBeq (s.set_visit_marker m) s = true := by
  rw [pyBeq, filterControl_set_visit_marker]; exact dEq_refl _

lemma is_frozen_freeze (s : PyState) : s.freeze.is_frozen = true := by
  rw [PyState.freeze]
  by_cases h : s.is_frozen
  · rw [if_pos h]; exact h
  · rw [if_neg h]
    show PyState.is_frozen ⟨dinsert "__isfrozen" (.vBool true) _⟩ = true
    rw [PyState.is_frozen]
    simp [dget_dinsert_self]
    rfl

lemma is_frozen_set_visit_marker (s : PyState) (m : String) :
    (s.set_visit_marker m).is_frozen = s.is_frozen := by
  rw [PyState.is_frozen, PyState.is_frozen]
  show (match dget "__isfrozen" (dinsert "__visitmarker" _ s.dict) with
    | some v => pyTruthy v | none => false) = _
  rw [dget_dinsert_ne (by decide) _ s.dict]

lemma is_frozen_copy (s : PyState) : s.copy.is_frozen = false := by
  rw [PyState.is_frozen]
  show (match dget "__isfrozen" (filterControl s.dict) with
    | some v => pyTruthy v | none => false) = false
  rw [dget_filterControl_control (by rfl)]

lemma pyBeq_copy (s : PyState) : pyBeq s.copy s = true := by
  rw [pyBeq]
  show dEq (filterControl (filterControl s.dict)) _ = true
  rw [filterControl_idem]; exact dEq_refl _

lemma pySetattr_frozen_error {s : PyState} {key : String} (v : Value)
    (hf : s.is_frozen = true) (h1 : key ≠ "__visitmarker") (h2 : key ≠ "__dict__") :
    pySetattr s key v = .error .attributeError := by
  rw [pySetattr, if_pos]
  rw [hf]
  simp [h1, h2]

/-! ### Generic lemmas about the `plan` loop -/

namespace Search

variable {S : Type} {cfg : Cfg S}

/-- The laws `State.__eq__`, `freeze` and `set_visit_marker` satisfy in
the source (proved below for `PyState`), phrased over an abstract state
type: the equality is an equivalence, the goal test respects it, and
freezing/marking do not change a state's equality class. -/
structure Lawful (cfg : Cfg S) : Prop where
  beq_refl : ∀ a, cfg.beq a a = true
  beq_symm : ∀ a b, cfg.beq a b = true → cfg.beq b a = true
  beq_trans : ∀ a b c, cfg.beq a b = true → cfg.beq b c = true → cfg.beq a c = true
  goal_congr : ∀ a b, cfg.beq a b = true → cfg.goalB a = cfg.goalB b
  freeze_eqv : ∀ s, cfg.beq (cfg.freezeFn s) s = true
  mark_eqv : ∀ m s, cfg.beq (cfg.markFn m s) s = true

/-- The operator-purity contract of the spec: operators applied to equal
states produce, up to state equality, the same successor states. -/
def SuccCongr (cfg : Cfg S) : Prop :=
  ∀ a b, cfg.beq a b = true → ∀ p ∈ makeNextStates cfg b,
    ∃ q ∈ makeNextStates cfg a, cfg.beq q.1 p.1 = true

lemma memSeen_true_iff {seen : List S} {s : S} :
    memSeen cfg seen s = true ↔ ∃ t ∈ seen, cfg.beq t s = true := by
  simp [memSeen, List.any_eq_true]

lemma memSeen_false_iff {seen : List S} {s : S} :
    memSeen cfg seen s = false ↔ ∀ t ∈ seen, cfg.beq t s = false := by
  constructor
  · intro h t ht
    cases hb : cfg.beq t s
    · rfl
    · rw [memSeen_true_iff.mpr ⟨t, ht, hb⟩] at h
      exact absurd h (by decide)
  · intro h
    cases hm : memSeen cfg seen s
    · rfl
    · obtain ⟨t, ht, hb⟩ := memSeen_true_iff.mp hm
      rw [h t ht] at hb
      exact absurd hb (by decide)

lemma pass2_expanded_split (q : List (Node S)) :
    ∀ seen endr acc exp, (pass2 cfg q seen endr acc exp).expanded
      = exp ++ (pass2 cfg q seen endr [] []).expanded := by
  induction q with
  | nil => intro seen endr acc exp; simp [pass2]
  | cons h rest ih =>
    intro seen endr acc exp
    by_cases hm : memSeen cfg seen h.state
    · rw [pass2, if_pos hm, pass2, if_pos hm, ih]
    · rw [pass2, if_neg hm, pass2, if_neg hm]
      show (pass2 cfg rest _ _ _ (exp ++ [h.state])).expanded
        = exp ++ (pass2 cfg rest _ _ _ ([] ++ [h.state])).expanded
      rw [ih _ _ _ (exp ++ [h.state]), ih _ _ _ ([] ++ [h.state])]
      simp

lemma pass2_newQueue_split (q : List (Node S)) :
    ∀ seen endr acc exp, (pass2 cfg q seen endr acc exp).newQueue
      = acc ++ (pass2 cfg q seen endr [] []).newQueue := by
  induction q with
  | nil => intro seen endr acc exp; simp [pass2]
  | cons h rest ih =>
    intro seen endr acc exp
    by_cases hm : memSeen cfg seen h.state
    · rw [pass2, if_pos hm, pass2, if_pos hm, ih]
    · rw [pass2, if_neg hm, pass2, if_neg hm]
      show (pass2 cfg rest _ _ (acc ++ childNodes cfg h) _).newQueue
        = acc ++ (pass2 cfg rest _ _ ([] ++ childNodes cfg h) _).newQueue
      rw [ih _ _ (acc ++ childNodes cfg h), ih _ _ ([] ++ childNodes cfg h)]
      simp

lemma pass2_seen_indep (q : List (Node S)) :
    ∀ seen endr acc exp acc' exp', (pass2 cfg q seen endr acc exp).seen
      = (pass2 cfg q seen endr acc' exp').seen := by
  induction q with
  | nil => intro seen endr acc exp acc' exp'; simp [pass2]
  | cons h rest ih =>
    intro seen endr acc exp acc' exp'
    by_cases hm : memSeen cfg seen h.state
    · rw [pass2, if_pos hm, pass2, if_pos hm, ih]
    · rw [pass2, if_neg hm, pass2, if_neg hm]
      exact ih _ _ _ _ _ _

lemma pass2_endResult_indep (q : List (Node S)) :
    ∀ seen endr acc exp acc' exp', (pass2 cfg q seen endr acc exp).endResult
      = (pass2 cfg q seen endr acc' exp').endResult := by
  induction q with
  | nil => intro seen endr acc exp acc' exp'; simp [pass2]
  | cons h rest ih =>
    intro seen endr acc exp acc' exp'
    by_cases hm : memSeen cfg seen h.state
    · rw [pass2, if_pos hm, pass2, if_pos hm, ih]
    · rw [pass2, if_neg hm, pass2, if_neg hm]
      exact ih _ _ _ _ _ _

lemma pass2_endr_some (q : List (Node S)) :
    ∀ seen acc exp (n : Node S),
      (pass2 cfg q seen (some n) acc exp).endResult = some n := by
  induction q with
  | nil => intro seen acc exp n; simp [pass2]
  | cons h rest ih =>
    intro seen acc exp n
    by_cases hm : memSeen cfg seen h.state
    · rw [pass2, if_pos hm]; exact ih _ _ _ _
    · rw [pass2, if_neg hm]
      show (pass2 cfg rest _ (if (some n).isNone && _ then _ else some n) _ _).endResult
        = some n
      simp only [Option.isNone_some, Bool.false_and, if_false]
      exact ih _ _ _ _

lemma pass2_seen_mono (q : List (Node S)) :
    ∀ seen endr acc exp t, t ∈ seen → t ∈ (pass2 cfg q seen endr acc exp).seen := by
  induction q with
  | nil => intro seen endr acc exp t ht; simpa [pass2] using ht
  | cons h rest ih =>
    intro seen endr acc exp t ht
    by_cases hm : memSeen cfg seen h.state
    · rw [pass2, if_pos hm]; exact ih _ _ _ _ _ ht
    · rw [pass2, if_neg hm]
      exact ih _ _ _ _ _ (List.mem_cons_of_mem _ ht)

lemma pass2_acc_mono (q : List (Node S)) :
    ∀ seen endr acc exp c, c ∈ acc → c ∈ (pass2 cfg q seen endr acc exp).newQueue := by
  induction q with
  | nil => intro seen endr acc exp c hc; simpa [pass2] using hc
  | cons h rest ih =>
    intro seen endr acc exp c hc
    by_cases hm : memSeen cfg seen h.state
    · rw [pass2, if_pos hm]; exact ih _ _ _ _ _ hc
    · rw [pass2, if_neg hm]
      exact ih _ _ _ _ _ (List.mem_append_left _ hc)

lemma pass2_all_seen (hrefl : ∀ a : S, cfg.beq a a = true) (q : List (Node S)) :
    ∀ seen endr acc exp, ∀ q' ∈ q,
      ∃ t ∈ (pass2 cfg q seen endr acc exp).seen, cfg.beq t q'.state = true := by
  induction q with
  | nil => intro seen endr acc exp q' hq'; exact absurd hq' (List.not_mem_nil _)
  | cons h rest ih =>
    intro seen endr acc exp q' hq'
    by_cases hm : memSeen cfg seen h.state
    · rw [pass2, if_pos hm]
      rcases List.mem_cons.mp hq' with rfl | hq'
      · obtain ⟨t, ht, hbt⟩ := memSeen_true_iff.mp hm
        exact ⟨t, pass2_seen_mono _ _ _ _ _ _ ht, hbt⟩
      · exact ih _ _ _ _ _ hq'
    · rw [pass2, if_neg hm]
      rcases List.mem_cons.mp hq' with rfl | hq'
      · exact ⟨q'.state, pass2_seen_mono _ _ _ _ _ _ (List.mem_cons_self _ _), hrefl _⟩
      · exact ih _ _ _ _ _ hq'

lemma pass2_seen_charact (q : List (Node S)) :
    ∀ seen endr acc exp, ∀ s ∈ (pass2 cfg q seen endr acc exp).seen,
      s ∈ seen ∨ ∃ q' ∈ q, q'.state = s ∧
        ∀ c ∈ childNodes cfg q', c ∈ (pass2 cfg q seen endr acc exp).newQueue := by
  induction q with
  | nil => intro seen endr acc exp s hs; exact Or.inl (by simpa [pass2] using hs)
  | cons h rest ih =>
    intro seen endr acc exp s hs
    by_cases hm : memSeen cfg seen h.state
    · rw [pass2, if_pos hm] at hs ⊢
      rcases ih _ _ _ _ _ hs with hin | ⟨q', hq', he, hch⟩
      · exact Or.inl hin
      · exact Or.inr ⟨q', List.mem_cons_of_mem _ hq', he, hch⟩
    · rw [pass2, if_neg hm] at hs ⊢
      rcases ih _ _ _ _ _ hs with hin | ⟨q', hq', he, hch⟩
      · rcases List.mem_cons.mp hin with rfl | hin
        · refine Or.inr ⟨h, List.mem_cons_self _ _, rfl, fun c hc => ?_⟩
          exact pass2_acc_mono _ _ _ _ _ _ (List.mem_append_right _ hc)
        · exact Or.inl hin
      · exact Or.inr ⟨q', List.mem_cons_of_mem _ hq', he, hch⟩

lemma pass2_newq_from (q : List (Node S)) :
    ∀ seen endr acc exp, ∀ c ∈ (pass2 cfg q seen endr acc exp).newQueue,
      c ∈ acc ∨ ∃ q' ∈ q, c ∈ childNodes cfg q' := by
  induction q with
  | nil => intro seen endr acc exp c hc; exact Or.inl (by simpa [pass2] using hc)
  | cons h rest ih =>
    intro seen endr acc exp c hc
    by_cases hm : memSeen cfg seen h.state
    · rw [pass2, if_pos hm] at hc
      rcases ih _ _ _ _ _ hc with hin | ⟨q', hq', hc'⟩
      · exact Or.inl hin
      · exact Or.inr ⟨q', List.mem_cons_of_mem _ hq', hc'⟩
    · rw [pass2, if_neg hm] at hc
      rcases ih _ _ _ _ _ hc with hin | ⟨q', hq', hc'⟩
      · rcases List.mem_append.mp hin with hin | hin
        · exact Or.inl hin
        · exact Or.inr ⟨h, List.mem_cons_self _ _, hin⟩
      · exact Or.inr ⟨q', List.mem_cons_of_mem _ hq', hc'⟩

lemma memSeen_cons {t : S} {seen : List S} {s : S} :
    memSeen cfg (t :: seen) s = (cfg.beq t s || memSeen cfg seen s) := by
  simp [memSeen]

lemma pass2_added_nogoal (q : List (Node S)) :
    ∀ seen acc exp, (pass2 cfg q seen none acc exp).endResult = none →
      ∀ s ∈ (pass2 cfg q seen none acc exp).seen, s ∈ seen ∨ cfg.goalB s = false := by
  induction q with
  | nil => intro seen acc exp _ s hs; exact Or.inl (by simpa [pass2] using hs)
  | cons h rest ih =>
    intro seen acc exp hend s hs
    by_cases hm : memSeen cfg seen h.state
    · rw [pass2, if_pos hm] at hend hs
      exact ih _ _ _ hend _ hs
    · rw [pass2, if_neg hm] at hend hs
      by_cases hg : cfg.goalB h.state
      · exfalso
        simp only [Option.isNone_none, Bool.true_and, hg, if_true] at hend
        rw [pass2_endr_some] at hend
        exact Option.some_ne_none _ hend
      · simp only [Option.isNone_none, Bool.true_and, hg, if_false] at hend hs
        rcases ih _ _ _ hend _ hs with hin | hgf
        · rcases List.mem_cons.mp hin with rfl | hin
          · exact Or.inr (Bool.eq_false_iff.mpr hg)
          · exact Or.inl hin
        · exact Or.inr hgf

lemma pass2_endr_sound (q : List (Node S)) :
    ∀ seen acc exp (n : Node S), (pass2 cfg q seen none acc exp).endResult = some n →
      n ∈ q ∧ cfg.goalB n.state = true := by
  induction q with
  | nil =>
    intro seen acc exp n h
    rw [pass2] at h
    exact absurd h.symm (Option.some_ne_none _)
  | cons h rest ih =>
    intro seen acc exp n hend
    by_cases hm : memSeen cfg seen h.state
    · rw [pass2, if_pos hm] at hend
      obtain ⟨hn, hg⟩ := ih _ _ _ _ hend
      exact ⟨List.mem_cons_of_mem _ hn, hg⟩
    · rw [pass2, if_neg hm] at hend
      by_cases hg : cfg.goalB h.state
      · simp only [Option.isNone_none, Bool.true_and, hg, if_true] at hend
        rw [pass2_endr_some] at hend
        obtain rfl : h = n := Option.some_injective _ hend
        exact ⟨List.mem_cons_self _ _, hg⟩
      · simp only [Option.isNone_none, Bool.true_and, hg, if_false] at hend
        obtain ⟨hn, hgn⟩ := ih _ _ _ _ hend
        exact ⟨List.mem_cons_of_mem _ hn, hgn⟩

lemma pass2_endr_complete (hgc : ∀ a b : S, cfg.beq a b = true → cfg.goalB a = cfg.goalB b)
    (q : List (Node S)) :
    ∀ seen acc exp, ∀ q' ∈ q, cfg.goalB q'.state = true →
      memSeen cfg seen q'.state = false →
      (pass2 cfg q seen none acc exp).endResult ≠ none := by
  induction q with
  | nil => intro seen acc exp q' hq'; exact absurd hq' (List.not_mem_nil _)
  | cons h rest ih =>
    intro seen acc exp q' hq' hgoal hunseen
    by_cases hm : memSeen cfg seen h.state
    · rw [pass2, if_pos hm]
      rcases List.mem_cons.mp hq' with rfl | hq'
      · rw [hunseen] at hm; exact absurd hm (by decide)
      · exact ih _ _ _ _ hq' hgoal hunseen
    · rw [pass2, if_neg hm]
      by_cases hg : cfg.goalB h.state
      · simp only [Option.isNone_none, Bool.true_and, hg, if_true]
        rw [pass2_endr_some]
        exact Option.some_ne_none _
      · simp only [Option.isNone_none, Bool.true_and, hg, if_false]
        rcases List.mem_cons.mp hq' with rfl | hq'
        · rw [hgoal] at hg; exact absurd rfl hg
        · refine ih _ _ _ _ hq' hgoal ?_
          rw [memSeen_cons]
          cases hb : cfg.beq h.state q'.state
          · rw [Bool.false_or]; exact hunseen
          · rw [hgc _ _ hb, hgoal] at hg
            exact absurd rfl hg

lemma pass2_expands_unseen (hrefl : ∀ a : S, cfg.beq a a = true) (q : List (Node S)) :
    ∀ seen endr acc exp, ∀ q' ∈ q, memSeen cfg seen q'.state = false →
      ∃ s ∈ (pass2 cfg q seen endr acc exp).expanded, cfg.beq s q'.state = true := by
  induction q with
  | nil => intro seen endr acc exp q' hq'; exact absurd hq' (List.not_mem_nil _)
  | cons h rest ih =>
    intro seen endr acc exp q' hq' hunseen
    by_cases hm : memSeen cfg seen h.state
    · rw [pass2, if_pos hm]
      rcases List.mem_cons.mp hq' with rfl | hq'
      · rw [hunseen] at hm; exact absurd hm (by decide)
      · exact ih _ _ _ _ _ hq' hunseen
    · rw [pass2, if_neg hm]
      have hmem : h.state ∈ (pass2 cfg rest (h.state :: seen)
          (if endr.isNone && cfg.goalB h.state then some h else endr)
          (acc ++ childNodes cfg h) (exp ++ [h.state])).expanded := by
        rw [pass2_expanded_split]
        exact List.mem_append_left _ (List.mem_append_right _ (List.mem_cons_self _ _))
      rcases List.mem_cons.mp hq' with rfl | hq'
      · exact ⟨q'.state, hmem, hrefl _⟩
      · cases hb : cfg.beq h.state q'.state
        · refine ih _ _ _ _ _ hq' ?_
          rw [memSeen_cons, hb, Bool.false_or]
          exact hunseen
        · exact ⟨h.state, hmem, hb⟩

lemma pass2_exp_from (q : List (Node S)) :
    ∀ seen endr acc exp, ∀ s ∈ (pass2 cfg q seen endr acc exp).expanded,
      s ∈ exp ∨ ∃ q' ∈ q, q'.state = s := by
  induction q with
  | nil => intro seen endr acc exp s hs; exact Or.inl (by simpa [pass2] using hs)
  | cons h rest ih =>
    intro seen endr acc exp s hs
    by_cases hm : memSeen cfg seen h.state
    · rw [pass2, if_pos hm] at hs
      rcases ih _ _ _ _ _ hs with hin | ⟨q', hq', he⟩
      · exact Or.inl hin
      · exact Or.inr ⟨q', List.mem_cons_of_mem _ hq', he⟩
    · rw [pass2, if_neg hm] at hs
      rcases ih _ _ _ _ _ hs with hin | ⟨q', hq', he⟩
      · rcases List.mem_append.mp hin with hin | hin
        · exact Or.inl hin
        · rcases List.mem_singleton.mp hin with rfl
          exact Or.inr ⟨h, List.mem_cons_self _ _, rfl⟩
      · exact Or.inr ⟨q', List.mem_cons_of_mem _ hq', he⟩

lemma pass2_exp_unseen (q : List (Node S)) :
    ∀ seen endr acc exp, ∀ b ∈ (pass2 cfg q seen endr acc exp).expanded,
      b ∈ exp ∨ ∀ t ∈ seen, cfg.beq t b = false := by
  induction q with
  | nil => intro seen endr acc exp b hb; exact Or.inl (by simpa [pass2] using hb)
  | cons h rest ih =>
    intro seen endr acc exp b hb
    by_cases hm : memSeen cfg seen h.state
    · rw [pass2, if_pos hm] at hb
      exact ih _ _ _ _ _ hb
    · rw [pass2, if_neg hm] at hb
      rcases ih _ _ _ _ _ hb with hin | hall
      · rcases List.mem_append.mp hin with hin | hin
        · exact Or.inl hin
        · rcases List.mem_singleton.mp hin with rfl
          exact Or.inr (memSeen_false_iff.mp (Bool.eq_false_iff.mpr hm))
      · exact Or.inr fun t ht => hall t (List.mem_cons_of_mem _ ht)

lemma pass2_exp_pairwise (q : List (Node S)) :
    ∀ seen endr acc exp,
      List.Pairwise (fun a b : S => cfg.beq a b = false) exp →
      (∀ a ∈ exp, a ∈ seen) →
      List.Pairwise (fun a b : S => cfg.beq a b = false)
        (pass2 cfg q seen endr acc exp).expanded := by
  induction q with
  | nil =>
    intro seen endr acc exp hpw _
    simpa [pass2] using hpw
  | cons h rest ih =>
    intro seen endr acc exp hpw hsub
    by_cases hm : memSeen cfg seen h.state
    · rw [pass2, if_pos hm]
      exact ih _ _ _ _ hpw hsub
    · rw [pass2, if_neg hm]
      refine ih _ _ _ _ ?_ ?_
      · rw [List.pairwise_append]
        refine ⟨hpw, List.pairwise_singleton _ _, fun a ha b hb => ?_⟩
        rcases List.mem_singleton.mp hb with rfl
        exact memSeen_false_iff.mp (Bool.eq_false_iff.mpr hm) a (hsub a ha)
      · intro a ha
        rcases List.mem_append.mp ha with ha | ha
        · exact List.mem_cons_of_mem _ (hsub a ha)
        · rcases List.mem_singleton.mp ha with rfl
          exact List.mem_cons_self _ _

lemma pass2_seen_eq (q : List (Node S)) :
    ∀ seen endr acc, (pass2 cfg q seen endr acc []).seen
      = (pass2 cfg q seen endr acc []).expanded.reverse ++ seen := by
  induction q with
  | nil => intro seen endr acc; simp [pass2]
  | cons h rest ih =>
    intro seen endr acc
    by_cases hm : memSeen cfg seen h.state
    · rw [pass2, if_pos hm]
      exact ih _ _ _
    · rw [pass2, if_neg hm]
      simp only [List.nil_append]
      generalize (if endr.isNone && cfg.goalB h.state then some h else endr) = endr'
      rw [pass2_seen_indep rest (h.state :: seen) endr'
        (acc ++ childNodes cfg h) [h.state] (acc ++ childNodes cfg h) []]
      rw [ih (h.state :: seen) endr' (acc ++ childNodes cfg h)]
      rw [pass2_expanded_split rest (h.state :: seen) endr' (acc ++ childNodes cfg h) [h.state]]
      rw [pass2_expanded_split rest (h.state :: seen) endr' (acc ++ childNodes cfg h) []]
      simp

lemma pass2_exp_nil (q : List (Node S)) :
    ∀ seen endr, (pass2 cfg q seen endr [] []).expanded = [] →
      (pass2 cfg q seen endr [] []).newQueue = [] := by
  induction q with
  | nil => intro seen endr _; simp [pass2]
  | cons h rest ih =>
    intro seen endr hexp
    by_cases hm : memSeen cfg seen h.state
    · rw [pass2, if_pos hm] at hexp ⊢
      exact ih _ _ hexp
    · rw [pass2, if_neg hm] at hexp
      rw [pass2_expanded_split] at hexp
      exact absurd hexp (by simp)

lemma pass1_mem_left
    (hfr : ∀ s : S, cfg.beq (cfg.freezeFn s) s = true)
    (hmk : ∀ (m : String) (s : S), cfg.beq (cfg.markFn m s) s = true)
    (htr : ∀ a b c : S, cfg.beq a b = true → cfg.beq b c = true → cfg.beq a c = true)
    (q : List (Node S)) :
    ∀ seen st, ∀ a ∈ (pass1 cfg q seen st).1,
      ∃ b ∈ q, a.description = b.description ∧ cfg.beq a.state b.state = true := by
  induction q with
  | nil => intro seen st a ha; exact absurd ha (List.not_mem_nil _)
  | cons h rest ih =>
    intro seen st a ha
    by_cases hm : memSeen cfg seen h.state
    · rw [pass1, if_pos hm] at ha
      replace ha : a ∈ (⟨cfg.freezeFn h.state, h.description⟩ : Node S)
          :: (pass1 cfg rest seen st).1 := ha
      rcases List.mem_cons.mp ha with rfl | ha
      · exact ⟨h, List.mem_cons_self _ _, rfl, hfr _⟩
      · obtain ⟨b, hb, hd, he⟩ := ih _ _ _ ha
        exact ⟨b, List.mem_cons_of_mem _ hb, hd, he⟩
    · rw [pass1, if_neg hm] at ha
      replace ha : a ∈ (⟨cfg.markFn (toString (st + 1)) (cfg.freezeFn h.state),
          h.description⟩ : Node S) :: (pass1 cfg rest seen (st + 1)).1 := ha
      rcases List.mem_cons.mp ha with rfl | ha
      · exact ⟨h, List.mem_cons_self _ _, rfl, htr _ _ _ (hmk _ _) (hfr _)⟩
      · obtain ⟨b, hb, hd, he⟩ := ih _ _ _ ha
        exact ⟨b, List.mem_cons_of_mem _ hb, hd, he⟩

lemma pass1_mem_right
    (hfr : ∀ s : S, cfg.beq (cfg.freezeFn s) s = true)
    (hmk : ∀ (m : String) (s : S), cfg.beq (cfg.markFn m s) s = true)
    (htr : ∀ a b c : S, cfg.beq a b = true → cfg.beq b c = true → cfg.beq a c = true)
    (q : List (Node S)) :
    ∀ seen st, ∀ b ∈ q, ∃ a ∈ (pass1 cfg q seen st).1,
      a.description = b.description ∧ cfg.beq a.state b.state = true := by
  induction q with
  | nil => intro seen st b hb; exact absurd hb (List.not_mem_nil _)
  | cons h rest ih =>
    intro seen st b hb
    by_cases hm : memSeen cfg seen h.state
    · rw [pass1, if_pos hm]
      rcases List.mem_cons.mp hb with rfl | hb
      · exact ⟨⟨cfg.freezeFn b.state, b.description⟩,
          List.mem_cons_self _ _, rfl, hfr _⟩
      · obtain ⟨a, ha, hd, he⟩ := ih seen st _ hb
        exact ⟨a, List.mem_cons_of_mem _ ha, hd, he⟩
    · rw [pass1, if_neg hm]
      rcases List.mem_cons.mp hb with rfl | hb
      · exact ⟨⟨cfg.markFn (toString (st + 1)) (cfg.freezeFn b.state), b.description⟩,
          List.mem_cons_self _ _, rfl, htr _ _ _ (hmk _ _) (hfr _)⟩
      · obtain ⟨a, ha, hd, he⟩ := ih seen (st + 1) _ hb
        exact ⟨a, List.mem_cons_of_mem _ ha, hd, he⟩

lemma planLoop_eq_nil (fuel : Nat) (ls : LoopState S) (h : ls.queue = []) :
    planLoop cfg fuel ls = ⟨.exhausted, ls.steps, ls.seen, ls.expanded⟩ := by
  cases fuel <;> rw [planLoop, h]

lemma planLoop_eq_zero (ls : LoopState S) (q0 : Node S) (qr : List (Node S))
    (h : ls.queue = q0 :: qr) :
    planLoop cfg 0 ls = ⟨.outOfFuel, ls.steps, ls.seen, ls.expanded⟩ := by
  rw [planLoop, h]

lemma planLoop_eq_succ_some (f : Nat) (ls : LoopState S) (q0 : Node S)
    (qr : List (Node S)) (h : ls.queue = q0 :: qr) (n : Node S)
    (hg : (genStep cfg ls).1 = some n) :
    planLoop cfg (f + 1) ls
      = ⟨.solved n, (genStep cfg ls).2.steps, (genStep cfg ls).2.seen,
          (genStep cfg ls).2.expanded⟩ := by
  rw [planLoop, h, hg]

lemma planLoop_eq_succ_none (f : Nat) (ls : LoopState S) (q0 : Node S)
    (qr : List (Node S)) (h : ls.queue = q0 :: qr)
    (hg : (genStep cfg ls).1 = none) :
    planLoop cfg (f + 1) ls = planLoop cfg f (genStep cfg ls).2 := by
  rw [planLoop, h, hg]

lemma genStep_proj (ls : LoopState S) :
    (genStep cfg ls).1
        = (pass2 cfg (pass1 cfg ls.queue ls.seen ls.steps).1 ls.seen none [] []).endResult ∧
      (genStep cfg ls).2.queue
        = (pass2 cfg (pass1 cfg ls.queue ls.seen ls.steps).1 ls.seen none [] []).newQueue ∧
      (genStep cfg ls).2.seen
        = (pass2 cfg (pass1 cfg ls.queue ls.seen ls.steps).1 ls.seen none [] []).seen ∧
      (genStep cfg ls).2.expanded
        = ls.expanded
          ++ (pass2 cfg (pass1 cfg ls.queue ls.seen ls.steps).1 ls.seen none [] []).expanded
        ∧ (genStep cfg ls).2.steps = (pass1 cfg ls.queue ls.seen ls.steps).2 := by
  refine ⟨rfl, rfl, rfl, rfl, rfl⟩

/-- Invariant step: one generation extends the expansion log with states
that are pairwise inequal among themselves and to everything already
logged. -/
lemma genStep_pairwise (ls : LoopState S)
    (hseen : ls.seen = ls.expanded.reverse)
    (hpw : List.Pairwise (fun a b : S => cfg.beq a b = false) ls.expanded) :
    List.Pairwise (fun a b : S => cfg.beq a b = false) (genStep cfg ls).2.expanded := by
  obtain ⟨-, -, -, hexp, -⟩ := @genStep_proj S cfg ls
  rw [hexp, List.pairwise_append]
  refine ⟨hpw, pass2_exp_pairwise _ _ _ _ _ (List.Pairwise.nil) (by intro a ha; cases ha),
    fun a ha b hb => ?_⟩
  rcases pass2_exp_unseen _ _ _ _ _ _ hb with hin | hall
  · cases hin
  · exact hall a (by rw [hseen]; exact List.mem_reverse.mpr ha)

lemma genStep_seen_eq (ls : LoopState S)
    (hseen : ls.seen = ls.expanded.reverse) :
    (genStep cfg ls).2.seen = (genStep cfg ls).2.expanded.reverse := by
  obtain ⟨-, -, hs, hexp, -⟩ := @genStep_proj S cfg ls
  rw [hs, hexp, pass2_seen_eq, hseen, List.reverse_append]

lemma planLoop_pairwise :
    ∀ (fuel : Nat) (ls : LoopState S),
      ls.seen = ls.expanded.reverse →
      List.Pairwise (fun a b : S => cfg.beq a b = false) ls.expanded →
      List.Pairwise (fun a b : S => cfg.beq a b = false)
        (planLoop cfg fuel ls).expanded := by
  intro fuel
  induction fuel with
  | zero =>
    intro ls hseen hpw
    cases hq : ls.queue with
    | nil => rw [planLoop_eq_nil _ _ hq]; exact hpw
    | cons q0 qr => rw [planLoop_eq_zero _ _ _ hq]; exact hpw
  | succ f ih =>
    intro ls hseen hpw
    cases hq : ls.queue with
    | nil => rw [planLoop_eq_nil _ _ hq]; exact hpw
    | cons q0 qr =>
      cases hg : (genStep cfg ls).1 with
      | some n =>
        rw [planLoop_eq_succ_some _ _ _ _ hq _ hg]
        exact genStep_pairwise _ hseen hpw
      | none =>
        rw [planLoop_eq_succ_none _ _ _ _ hq hg]
        exact ih _ (genStep_seen_eq _ hseen) (genStep_pairwise _ hseen hpw)

/-- A run that dies of fuel exhaustion logged at least one expansion per
generation it executed. -/
lemma planLoop_outOfFuel_expanded :
    ∀ (fuel : Nat) (ls : LoopState S),
      (planLoop cfg fuel ls).outcome = .outOfFuel →
      ls.expanded.length + fuel ≤ (planLoop cfg fuel ls).expanded.length := by
  intro fuel
  induction fuel with
  | zero =>
    intro ls hout
    cases hq : ls.queue with
    | nil =>
      rw [planLoop_eq_nil _ _ hq] at hout
      exact absurd hout (fun h => Outcome.noConfusion h)
    | cons q0 qr => rw [planLoop_eq_zero _ _ _ hq]; simp
  | succ f ih =>
    intro ls hout
    cases hq : ls.queue with
    | nil =>
      rw [planLoop_eq_nil _ _ hq] at hout
      exact absurd hout (fun h => Outcome.noConfusion h)
    | cons q0 qr =>
      cases hg : (genStep cfg ls).1 with
      | some n =>
        rw [planLoop_eq_succ_some _ _ _ _ hq _ hg] at hout
        exact absurd hout (fun h => Outcome.noConfusion h)
      | none =>
        rw [planLoop_eq_succ_none _ _ _ _ hq hg] at hout ⊢
        obtain ⟨hg', hq', -, hexp, -⟩ := @genStep_proj S cfg ls
        cases hΔ : (pass2 cfg (pass1 cfg ls.queue ls.seen ls.steps).1
            ls.seen none [] []).expanded with
        | nil =>
          exfalso
          have hnq := pass2_exp_nil _ _ _ hΔ
          have hempty : (genStep cfg ls).2.queue = [] := by rw [hq', hnq]
          rw [planLoop_eq_nil _ _ hempty] at hout
          exact Outcome.noConfusion hout
        | cons e rest =>
          have h1 := ih (genStep cfg ls).2 hout
          have h2 : (genStep cfg ls).2.expanded.length = ls.expanded.length
              + (e :: rest).length := by
            rw [hexp, List.length_append, hΔ]
          simp only [List.length_cons] at h2
          omega

/-- Every state in the frontier or the expansion log of a running loop
is, up to state equality, reachable from the start. -/
lemma genStep_queue_reach (L : Lawful cfg) (start : S) (ls : LoopState S)
    (hq : ∀ q ∈ ls.queue, ∃ j t, Reach cfg start j t ∧ cfg.beq q.state t = true) :
    (∀ p ∈ (pass1 cfg ls.queue ls.seen ls.steps).1,
        ∃ j t, Reach cfg start j t ∧ cfg.beq p.state t = true) ∧
      ∀ q' ∈ (genStep cfg ls).2.queue,
        ∃ j t, Reach cfg start j t ∧ cfg.beq q'.state t = true := by
  have hq1 : ∀ p ∈ (pass1 cfg ls.queue ls.seen ls.steps).1,
      ∃ j t, Reach cfg start j t ∧ cfg.beq p.state t = true := by
    intro p hp
    obtain ⟨b, hb, -, hbe⟩ := pass1_mem_left L.freeze_eqv L.mark_eqv L.beq_trans _ _ _ _ hp
    obtain ⟨j, t, hr, hbt⟩ := hq b hb
    exact ⟨j, t, hr, L.beq_trans _ _ _ hbe hbt⟩
  refine ⟨hq1, fun q' hq' => ?_⟩
  obtain ⟨-, hqq, -, -, -⟩ := @genStep_proj S cfg ls
  rw [hqq] at hq'
  rcases pass2_newq_from _ _ _ _ _ _ hq' with hin | ⟨p, hp, hc⟩
  · cases hin
  · obtain ⟨j, t, hr, hpt⟩ := hq1 p hp
    rw [childNodes] at hc
    obtain ⟨pr, hpr, rfl⟩ := List.mem_map.mp hc
    exact ⟨j + 1, pr.1,
      Reach.step hr (L.beq_symm _ _ hpt) (by exact hpr),
      L.beq_refl _⟩

/-- A run over operators with an unreachable goal never returns
`solved`. -/
lemma planLoop_no_solved (L : Lawful cfg) (start : S)
    (hnogoal : ∀ j s, Reach cfg start j s → cfg.goalB s = false) :
    ∀ (fuel : Nat) (ls : LoopState S),
      (∀ q ∈ ls.queue, ∃ j t, Reach cfg start j t ∧ cfg.beq q.state t = true) →
      ∀ n : Node S, (planLoop cfg fuel ls).outcome ≠ .solved n := by
  intro fuel
  induction fuel with
  | zero =>
    intro ls hq n hout
    cases hqe : ls.queue with
    | nil =>
      rw [planLoop_eq_nil _ _ hqe] at hout
      exact Outcome.noConfusion hout
    | cons q0 qr =>
      rw [planLoop_eq_zero _ _ _ hqe] at hout
      exact Outcome.noConfusion hout
  | succ f ih =>
    intro ls hq n hout
    cases hqe : ls.queue with
    | nil =>
      rw [planLoop_eq_nil _ _ hqe] at hout
      exact Outcome.noConfusion hout
    | cons q0 qr =>
      cases hg : (genStep cfg ls).1 with
      | some m =>
        obtain ⟨hg', -, -, -, -⟩ := @genStep_proj S cfg ls
        rw [hg'] at hg
        obtain ⟨hm, hgoal⟩ := pass2_endr_sound _ _ _ _ _ hg
        obtain ⟨j, t, hr, hmt⟩ := (genStep_queue_reach L start ls hq).1 _ hm
        rw [L.goal_congr _ _ hmt, hnogoal j t hr] at hgoal
        exact Bool.noConfusion hgoal
      | none =>
        rw [planLoop_eq_succ_none _ _ _ _ hqe hg] at hout
        exact ih _ (genStep_queue_reach L start ls hq).2 n hout

/-- Everything in the expansion log is, up to state equality, reachable. -/
lemma planLoop_exp_reach (L : Lawful cfg) (start : S) :
    ∀ (fuel : Nat) (ls : LoopState S),
      (∀ q ∈ ls.queue, ∃ j t, Reach cfg start j t ∧ cfg.beq q.state t = true) →
      (∀ s ∈ ls.expanded, ∃ j t, Reach cfg start j t ∧ cfg.beq s t = true) →
      ∀ s ∈ (planLoop cfg fuel ls).expanded,
        ∃ j t, Reach cfg start j t ∧ cfg.beq s t = true := by
  intro fuel
  induction fuel with
  | zero =>
    intro ls hq he s hs
    cases hqe : ls.queue with
    | nil => rw [planLoop_eq_nil _ _ hqe] at hs; exact he s hs
    | cons q0 qr => rw [planLoop_eq_zero _ _ _ hqe] at hs; exact he s hs
  | succ f ih =>
    intro ls hq he s hs
    have hgen : ∀ x ∈ (genStep cfg ls).2.expanded,
        ∃ j t, Reach cfg start j t ∧ cfg.beq x t = true := by
      intro x hx
      obtain ⟨-, -, -, hexp, -⟩ := @genStep_proj S cfg ls
      rw [hexp] at hx
      rcases List.mem_append.mp hx with hx | hx
      · exact he x hx
      · rcases pass2_exp_from _ _ _ _ _ _ hx with hin | ⟨p, hp, he'⟩
        · cases hin
        · obtain ⟨j, t, hr, hpt⟩ := (genStep_queue_reach L start ls hq).1 p hp
          exact ⟨j, t, hr, by rw [← he']; exact hpt⟩
    cases hqe : ls.queue with
    | nil => rw [planLoop_eq_nil _ _ hqe] at hs; exact he s hs
    | cons q0 qr =>
      cases hg : (genStep cfg ls).1 with
      | some n =>
        rw [planLoop_eq_succ_some _ _ _ _ hqe _ hg] at hs
        exact hgen s hs
      | none =>
        rw [planLoop_eq_succ_none _ _ _ _ hqe hg] at hs
        exact ih _ (genStep_queue_reach L start ls hq).2 hgen s hs

/-- Pigeonhole: pairwise-inequal states that all have equal
representatives in `R` are no more numerous than `R`. -/
lemma beq_pigeonhole (L : Lawful cfg) :
    ∀ (l R : List S),
      List.Pairwise (fun a b : S => cfg.beq a b = false) l →
      (∀ x ∈ l, ∃ y ∈ R, cfg.beq x y = true) →
      l.length ≤ R.length := by
  intro l
  induction l with
  | nil => intro R _ _; simp
  | cons x l' ih =>
    intro R hpw hcov
    obtain ⟨y, hy, hxy⟩ := hcov x (List.mem_cons_self _ _)
    obtain ⟨R₁, R₂, rfl⟩ := List.append_of_mem hy
    have hpw' := List.pairwise_cons.mp hpw
    have hcov' : ∀ t ∈ l', ∃ y' ∈ R₁ ++ R₂, cfg.beq t y' = true := by
      intro t ht
      obtain ⟨y', hy', hty'⟩ := hcov t (List.mem_cons_of_mem _ ht)
      rcases List.mem_append.mp hy' with h1 | h2
      · exact ⟨y', List.mem_append_left _ h1, hty'⟩
      · rcases List.mem_cons.mp h2 with rfl | h2
        · exfalso
          have hxt : cfg.beq x t = true :=
            L.beq_trans _ _ _ hxy (L.beq_symm _ _ hty')
          rw [hpw'.1 t ht] at hxt
          exact Bool.noConfusion hxt
        · exact ⟨y', List.mem_append_right _ h2, hty'⟩
    have := ih (R₁ ++ R₂) hpw'.2 hcov'
    simp only [List.length_append, List.length_cons] at this ⊢
    omega

/-- Level invariant of the generation-synchronised loop: if the loop,
started at generation `g` with the stated invariants, returns `solved n`,
then `n`'s path is no longer than any path that reaches a goal state.
The invariants: frontier nodes carry paths of length `g`; seen states
are not goals; states reachable in fewer than `g` steps are seen;
states reachable in exactly `g` steps are seen or in the frontier; and
successors of seen states are seen or in the frontier. -/
lemma loop_minimal (L : Lawful cfg) (hsc : SuccCongr cfg) (start : S) :
    ∀ (fuel g : Nat) (ls : LoopState S) (n : Node S),
      (∀ q ∈ ls.queue, q.description.length = g) →
      (∀ s ∈ ls.seen, cfg.goalB s = false) →
      (∀ j s, Reach cfg start j s → j < g → ∃ t ∈ ls.seen, cfg.beq t s = true) →
      (∀ s, Reach cfg start g s →
        (∃ t ∈ ls.seen, cfg.beq t s = true) ∨ ∃ q ∈ ls.queue, cfg.beq q.state s = true) →
      (∀ t ∈ ls.seen, ∀ p ∈ makeNextStates cfg t,
        (∃ u ∈ ls.seen, cfg.beq u p.1 = true) ∨
          ∃ q ∈ ls.queue, cfg.beq q.state p.1 = true) →
      (planLoop cfg fuel ls).outcome = .solved n →
      ∀ k tg, Reach cfg start k tg → cfg.goalB tg = true →
        n.description.length ≤ k := by
  intro fuel
  induction fuel with
  | zero =>
    intro g ls n _ _ _ _ _ hout
    cases hqe : ls.queue with
    | nil =>
      rw [planLoop_eq_nil _ _ hqe] at hout
      exact absurd hout (fun h => Outcome.noConfusion h)
    | cons q0 qr =>
      rw [planLoop_eq_zero _ _ _ hqe] at hout
      exact absurd hout (fun h => Outcome.noConfusion h)
  | succ f ih =>
    intro g ls n hdesc hnogoal hcomp hfront hsucc hout k tg hreach hgoal
    cases hqe : ls.queue with
    | nil =>
      rw [planLoop_eq_nil _ _ hqe] at hout
      exact absurd hout (fun h => Outcome.noConfusion h)
    | cons q0 qr =>
      cases hg : (genStep cfg ls).1 with
      | some m =>
        rw [planLoop_eq_succ_some _ _ _ _ hqe _ hg] at hout
        replace hout : Outcome.solved m = Outcome.solved n := hout
        have hmn : m = n := by cases hout; rfl
        have hend : (pass2 cfg (pass1 cfg ls.queue ls.seen ls.steps).1
            ls.seen none [] []).endResult = some m := hg
        obtain ⟨hmem, -⟩ := pass2_endr_sound _ _ _ _ _ hend
        obtain ⟨b, hb, hdb, -⟩ :=
          pass1_mem_left L.freeze_eqv L.mark_eqv L.beq_trans _ _ _ _ hmem
        have hlen : n.description.length = g := by
          rw [← hmn, hdb]; exact hdesc b hb
        by_contra hlt
        push_neg at hlt
        have hkg : k < g := by omega
        obtain ⟨t, ht, htg⟩ := hcomp k tg hreach hkg
        have := L.goal_congr _ _ htg
        rw [hnogoal t ht, hgoal] at this
        exact Bool.noConfusion this
      | none =>
        rw [planLoop_eq_succ_none _ _ _ _ hqe hg] at hout
        have hend : (pass2 cfg (pass1 cfg ls.queue ls.seen ls.steps).1
            ls.seen none [] []).endResult = none := hg
        -- abbreviations (definitionally equal to the genStep projections)
        have hq' : (genStep cfg ls).2.queue
            = (pass2 cfg (pass1 cfg ls.queue ls.seen ls.steps).1
                ls.seen none [] []).newQueue := rfl
        have hs' : (genStep cfg ls).2.seen
            = (pass2 cfg (pass1 cfg ls.queue ls.seen ls.steps).1
                ls.seen none [] []).seen := rfl
        -- queue states have seen-set representatives after the pass
        have hF3 : ∀ b ∈ ls.queue, ∃ t ∈ (genStep cfg ls).2.seen,
            cfg.beq t b.state = true := by
          intro b hb
          obtain ⟨a, ha, -, hab⟩ :=
            pass1_mem_right L.freeze_eqv L.mark_eqv L.beq_trans _ _ _ _ hb
          obtain ⟨t, ht, hta⟩ := pass2_all_seen L.beq_refl _ _ _ _ _ _ ha
          exact ⟨t, ht, L.beq_trans _ _ _ hta hab⟩
        refine ih (g + 1) (genStep cfg ls).2 n ?_ ?_ ?_ ?_ ?_ hout k tg hreach hgoal
        · -- frontier paths have length g + 1
          intro c hc
          rw [hq'] at hc
          rcases pass2_newq_from _ _ _ _ _ _ hc with hin | ⟨p, hp, hcp⟩
          · cases hin
          · rw [childNodes] at hcp
            obtain ⟨pr, -, rfl⟩ := List.mem_map.mp hcp
            obtain ⟨b, hb, hdb, -⟩ :=
              pass1_mem_left L.freeze_eqv L.mark_eqv L.beq_trans _ _ _ _ hp
            simp only [List.length_append, List.length_singleton]
            rw [hdb, hdesc b hb]
        · -- seen states are not goals
          intro s hs
          rw [hs'] at hs
          rcases pass2_added_nogoal _ _ _ _ hend s hs with hin | hgf
          · exact hnogoal s hin
          · exact hgf
        · -- states reachable in < g + 1 steps are seen
          intro j s hr hj
          rcases Nat.lt_succ_iff_lt_or_eq.mp hj with hj | rfl
          · obtain ⟨t, ht, hts⟩ := hcomp j s hr hj
            exact ⟨t, by rw [hs']; exact pass2_seen_mono _ _ _ _ _ _ ht, hts⟩
          · rcases hfront s hr with ⟨t, ht, hts⟩ | ⟨q, hq, hqs⟩
            · exact ⟨t, by rw [hs']; exact pass2_seen_mono _ _ _ _ _ _ ht, hts⟩
            · obtain ⟨t, ht, htq⟩ := hF3 q hq
              exact ⟨t, ht, L.beq_trans _ _ _ htq hqs⟩
        · -- states reachable in exactly g + 1 steps are seen or in frontier
          intro s hr
          cases hr with
          | step hw hb hm =>
            rename_i w s' d
            -- helper: a seen state equal to s' yields a seen representative of s
            have lemA : ∀ t ∈ ls.seen, cfg.beq t s' = true →
                ∃ u ∈ (genStep cfg ls).2.seen, cfg.beq u s = true := by
              intro t ht hts'
              obtain ⟨pq, hpq, hpqs⟩ := hsc t s' hts' _ hm
              rcases hsucc t ht pq hpq with ⟨u, hu, hupq⟩ | ⟨qn, hqn, hqnpq⟩
              · exact ⟨u, by rw [hs']; exact pass2_seen_mono _ _ _ _ _ _ hu,
                  L.beq_trans _ _ _ hupq hpqs⟩
              · obtain ⟨u, hu, huqn⟩ := hF3 qn hqn
                exact ⟨u, hu,
                  L.beq_trans _ _ _ (L.beq_trans _ _ _ huqn hqnpq) hpqs⟩
            rcases hfront w hw with ⟨t, ht, htw⟩ | ⟨qn, hqn, hqnw⟩
            · exact Or.inl (lemA t ht (L.beq_trans _ _ _ htw hb))
            · obtain ⟨a, ha, -, haqn⟩ :=
                pass1_mem_right L.freeze_eqv L.mark_eqv L.beq_trans _ _ _ _ hqn
              obtain ⟨t, ht, hta⟩ := pass2_all_seen L.beq_refl _ _ _ _ _ _ ha
              have hts' : cfg.beq t s' = true :=
                L.beq_trans _ _ _ (L.beq_trans _ _ _
                  (L.beq_trans _ _ _ hta haqn) hqnw) hb
              rcases pass2_seen_charact _ _ _ _ _ _ ht with hin | ⟨p, -, rfl, hch⟩
              · exact Or.inl (lemA _ hin hts')
              · obtain ⟨pq, hpq, hpqs⟩ := hsc p.state s' hts' _ hm
                refine Or.inr ⟨⟨pq.1, p.description ++ [pq.2]⟩, ?_, hpqs⟩
                rw [hq']
                exact hch _ (by rw [childNodes]; exact List.mem_map.mpr ⟨pq, hpq, rfl⟩)
        · -- successors of seen states are seen or in frontier
          intro t ht p hp
          rw [hs'] at ht
          rcases pass2_seen_charact _ _ _ _ _ _ ht with hin | ⟨p', -, rfl, hch⟩
          · rcases hsucc t hin p hp with ⟨u, hu, hup⟩ | ⟨qn, hqn, hqnp⟩
            · exact Or.inl ⟨u, by rw [hs']; exact pass2_seen_mono _ _ _ _ _ _ hu, hup⟩
            · obtain ⟨u, hu, huqn⟩ := hF3 qn hqn
              exact Or.inl ⟨u, hu, L.beq_trans _ _ _ huqn hqnp⟩
          · refine Or.inr ⟨⟨p.1, p'.description ++ [p.2]⟩, ?_, L.beq_refl _⟩
            rw [hq']
            exact hch _ (by rw [childNodes]; exact List.mem_map.mpr ⟨p, hp, rfl⟩)

/-- `pass2` returns as `end_result` exactly the first unseen goal node
of the frontier, in frontier order. -/
lemma pass2_endr_eq_firstUnseenGoal (q : List (Node S)) :
    ∀ seen acc exp, (pass2 cfg q seen none acc exp).endResult
      = firstUnseenGoal cfg q seen := by
  induction q with
  | nil => intro seen acc exp; rw [pass2, firstUnseenGoal]
  | cons h rest ih =>
    intro seen acc exp
    by_cases hm : memSeen cfg seen h.state
    · rw [pass2, if_pos hm, firstUnseenGoal, if_pos hm]
      exact ih _ _ _
    · rw [pass2, if_neg hm, firstUnseenGoal, if_neg hm]
      by_cases hg : cfg.goalB h.state
      · simp only [Option.isNone_none, Bool.true_and, hg, if_true]
        rw [pass2_endr_some]
      · simp only [Option.isNone_none, Bool.true_and, hg, if_false]
        exact ih _ _ _

lemma reach_zero {start s : S} (h : Reach cfg start 0 s) : s = start := by
  cases h
  rfl

lemma reach_ops_nil {start : S} (hops : cfg.ops = []) :
    ∀ j s, Reach cfg start j s → s = start ∧ j = 0 := by
  intro j s hr
  induction hr with
  | refl => exact ⟨rfl, rfl⟩
  | step hw hb hm ih =>
    exfalso
    rw [makeNextStates, hops] at hm
    exact absurd hm (List.not_mem_nil _)

end Search

/-! ### Laws of the concrete fixtures -/

lemma incBeq_refl : ∀ a : Fin 4, incPlanner.toCfg.beq a a = true := by decide

lemma lawful_incPlanner : Lawful incPlanner.toCfg :=
  ⟨incBeq_refl, by decide, by decide, by decide,
    fun s => incBeq_refl s, fun _ s => incBeq_refl s⟩

lemma succCongr_incPlanner : SuccCongr incPlanner.toCfg := by
  unfold SuccCongr
  decide

lemma noOpBeq_refl : ∀ a : Fin 3, noOpCfg.beq a a = true := by decide

lemma lawful_noOpCfg : Lawful noOpCfg :=
  ⟨noOpBeq_refl, by decide, by decide, by decide,
    fun s => noOpBeq_refl s, fun _ s => noOpBeq_refl s⟩

/-! ### Claim theorems -/

/-- C1: in every run of `Planner.plan`, each distinct state value is
expanded (passed to `_apply`) at most once: the states in the expansion
log are pairwise unequal under `State.__eq__`, including duplicates
occurring within one generation. -/
theorem planner_expands_each_state_at_most_once {S : Type}
    (cfg : Cfg S) (start : S) (fuel : Nat) :
    List.Pairwise (fun a b : S => cfg.beq a b = false)
      (Search.plan cfg start fuel).expanded :=
  planLoop_pairwise fuel (startLoopState start) rfl List.Pairwise.nil

/-- C2: a Breadth-First run of `plan` that returns a result returns a
shortest path: no operator path from the start that reaches a
goal-satisfying state is shorter than the returned action sequence.
The hypotheses state the operator contract of the spec: state equality
is an equivalence respected by the goal test, freeze and visit marker,
and operators are pure functions of the state value. -/
theorem bfs_returns_minimal_path {S : Type} (p : PyPlanner S)
    (L : Lawful p.toCfg) (hsc : SuccCongr p.toCfg)
    (hstrat : p.searchStrategy = SearchStrategyKind.breadthFirst)
    (start : S) (fuel : Nat) (n : Node S)
    (hrun : (p.plan start fuel).outcome = Outcome.solved n)
    (k : Nat) (tg : S) (hreach : Reach p.toCfg start k tg)
    (hgoal : p.toCfg.goalB tg = true) :
    n.description.length ≤ k := by
  refine loop_minimal L hsc start fuel 0 (startLoopState start) n
    ?_ ?_ ?_ ?_ ?_ hrun k tg hreach hgoal
  · intro q hq
    rcases List.mem_singleton.mp hq with rfl
    rfl
  · intro s hs
    exact absurd hs (List.not_mem_nil _)
  · intro j s _ hj
    omega
  · intro s hr
    obtain rfl := reach_zero hr
    exact Or.inr ⟨⟨s, []⟩, List.mem_singleton.mpr rfl, L.beq_refl _⟩
  · intro t ht
    exact absurd ht (List.not_mem_nil _)

/-- Witness for C2 at the `Fin 4` increment planner: the breadth-first
run from `0` to goal `2` returns the two-step path, and the theorem
bounds its length by the length `2` of the explicit reachability
certificate `0 → 1 → 2`. -/
theorem bfs_returns_minimal_path_witness :
    (incPlanner.plan (0 : Fin 4) 6).outcome
        = Outcome.solved ⟨2, ["inc", "inc"]⟩ ∧
      (⟨(2 : Fin 4), ["inc", "inc"]⟩ : Node (Fin 4)).description.length ≤ 2 := by
  constructor
  · rfl
  · refine bfs_returns_minimal_path incPlanner lawful_incPlanner succCongr_incPlanner
      rfl 0 6 ⟨2, ["inc", "inc"]⟩ rfl 2 2 ?_ (by decide)
    have h1 : Reach incPlanner.toCfg (0 : Fin 4) 1 1 :=
      @Reach.step (Fin 4) incPlanner.toCfg 0 0 0 0 1 "inc"
        Reach.refl (by decide) (by decide)
    exact @Reach.step (Fin 4) incPlanner.toCfg 0 1 1 1 2 "inc"
      h1 (by decide) (by decide)

/-- C3: the counter scenario (start `{counter: 0}`, operators `add 1`
and `add 2`, goal `{counter: 5}`, Breadth-First strategy) returns a
result whose state equals `{counter: 5}` under `State.__eq__` and whose
action labels are exactly `["add 1", "add 2", "add 2"]`. -/
theorem counter_scenario_result :
    ((counterPlanner.plan counterStart 10).outcome.resultNode).map
        (fun n => (pyBeq counterEnd n.state, n.description))
      = some (true, ["add 1", "add 2", "add 2"]) := by
  rfl

/-- Counterexample to C4: the counter run returns Solved, yet its
expansion log contains a state equal to the goal `{counter: 5}` — the
goal generation is still expanded through the operators before `plan`
returns. -/
theorem goal_generation_still_expanded_cx :
    ((counterPlanner.plan counterStart 10).outcome.resultNode).isSome = true ∧
      (counterPlanner.plan counterStart 10).expanded.any
          (fun s => pyBeq counterEnd s) = true := by
  exact ⟨rfl, rfl⟩

/-- C4 (amended): in every generation, the run terminates Solved with
the first unseen goal node in frontier order — but only after every
unseen node of that generation (the goal node included) has been
expanded through the operators; the produced successors are discarded. -/
theorem generation_goal_protocol {S : Type} (cfg : Cfg S)
    (hrefl : ∀ a : S, cfg.beq a a = true)
    (queue : List (Node S)) (seen : List S) :
    (pass2 cfg queue seen none [] []).endResult = firstUnseenGoal cfg queue seen ∧
      (∀ q ∈ queue, memSeen cfg seen q.state = false →
        ∃ s ∈ (pass2 cfg queue seen none [] []).expanded,
          cfg.beq s q.state = true) ∧
      ∀ (f : Nat) (ls : LoopState S) (n q0 : Node S) (qr : List (Node S)),
        ls.queue = q0 :: qr → (genStep cfg ls).1 = some n →
        (planLoop cfg (f + 1) ls).outcome = Outcome.solved n := by
  refine ⟨pass2_endr_eq_firstUnseenGoal _ _ _ _,
    fun q hq hun => pass2_expands_unseen hrefl _ _ _ _ _ _ hq hun,
    fun f ls n q0 qr hq hg => ?_⟩
  rw [planLoop_eq_succ_some _ _ _ _ hq _ hg]

/-- Witness for C4's amended theorem at the counter scenario's root
generation. -/
theorem generation_goal_protocol_witness :
    (pass2 counterPlanner.toCfg [⟨counterStart, []⟩] [] none [] []).endResult
        = firstUnseenGoal counterPlanner.toCfg [⟨counterStart, []⟩] [] ∧
      (∀ q ∈ [(⟨counterStart, []⟩ : Node PyState)],
        memSeen counterPlanner.toCfg [] q.state = false →
        ∃ s ∈ (pass2 counterPlanner.toCfg [⟨counterStart, []⟩] [] none [] []).expanded,
          counterPlanner.toCfg.beq s q.state = true) ∧
      ∀ (f : Nat) (ls : LoopState PyState) (n q0 : Node PyState)
          (qr : List (Node PyState)),
        ls.queue = q0 :: qr → (genStep counterPlanner.toCfg ls).1 = some n →
        (planLoop counterPlanner.toCfg (f + 1) ls).outcome = Outcome.solved n :=
  generation_goal_protocol counterPlanner.toCfg pyBeq_refl [⟨counterStart, []⟩] []

/-- Counterexample to C5: with the Depth-First strategy installed, the
second generation's frontier still enumerates the newly produced nodes
in production (FIFO) order `add 1, add 2`, not in the LIFO order the
claim asserts. -/
theorem dfs_enumeration_not_lifo_cx :
    ((loopStateAt counterPlannerDFS.toCfg counterStart 1).map
        fun ls => ls.queue.map (fun n => n.description))
        = some [["add 1"], ["add 2"]] ∧
      some [["add 1"], ["add 2"]] ≠ some [["add 2"], ["add 1"]] := by
  exact ⟨rfl, by decide⟩

/-- C5 (amended): `plan` never consults the stored search strategy —
two planners differing only in their strategy run identically on every
input, so the Breadth-First and Depth-First strategies cannot produce
different enumeration orders. -/
theorem plan_ignores_search_strategy {S : Type} (p : PyPlanner S)
    (k1 k2 : SearchStrategyKind) (start : S) (fuel : Nat) :
    PyPlanner.plan { p with searchStrategy := k1 } start fuel
      = PyPlanner.plan { p with searchStrategy := k2 } start fuel := rfl

/-- C6 (code bug): in the counter scenario the step counter reaches `9`,
because the first marking loop counts every unseen frontier node,
including duplicate equal states within one generation — while only `7`
distinct states are ever discovered/expanded, and the repository's own
smoke test asserts `suj.steps == 6`. -/
theorem counter_steps_counts_duplicates :
    (counterPlanner.plan counterStart 10).steps = 9 ∧
      (counterPlanner.plan counterStart 10).expanded.length = 7 := by
  exact ⟨rfl, rfl⟩

/-- Counterexample to C7: on a frozen state, `__setattr__` accepts the
field name `__dict__` (the source exempts it alongside the visit
marker), writes the entry and changes the observable dictionary instead
of raising. -/
theorem frozen_setattr_dict_key_cx :
    (PyState.freeze ⟨[("x", .vInt 1)]⟩).is_frozen = true ∧
      pySetattr (PyState.freeze ⟨[("x", .vInt 1)]⟩) "__dict__" (.vInt 0)
        = .ok ⟨[("x", .vInt 1),
            ("__hash_value", .vPair (.vPair (.vStr "x") (.vInt 1)) .vNil),
            ("__isfrozen", .vBool true), ("__dict__", .vInt 0)]⟩ := by
  exact ⟨rfl, rfl⟩

/-- C7 (amended): setting any field other than the visit marker and the
special name `__dict__` on a frozen state fails with the immutability
error (`AttributeError`), for every value; the state is returned
unchanged. -/
theorem frozen_setattr_rejected (s : PyState) (key : String) (v : Value)
    (hf : s.is_frozen = true) (h1 : key ≠ "__visitmarker")
    (h2 : key ≠ "__dict__") :
    pySetattr s key v = .error .attributeError :=
  pySetattr_frozen_error v hf h1 h2

/-- Witness for C7's amended theorem on a concrete frozen state. -/
theorem frozen_setattr_rejected_witness :
    pySetattr (PyState.freeze ⟨[("x", .vInt 1)]⟩) "y" (.vInt 0)
      = .error .attributeError :=
  frozen_setattr_rejected _ _ _ rfl (by decide) (by decide)

/-- C8: for every state, `copy()` produces a state equal to the
original under `State.__eq__`, and the copy is not frozen even when the
original was. -/
theorem copy_equal_and_mutable (s : PyState) :
    pyBeq s.copy s = true ∧ s.copy.is_frozen = false :=
  ⟨pyBeq_copy s, is_frozen_copy s⟩

/-- C9: a run whose goal is satisfied by no reachable state, over a
finite reachable state space (covered by the list `R`), terminates with
the `None` outcome (`exhausted`) once given fuel beyond the size of the
state space; it never returns a result. -/
theorem unreachable_goal_exhausts {S : Type} (cfg : Cfg S) (L : Lawful cfg)
    (start : S) (R : List S) (fuel : Nat)
    (hfin : ∀ j s, Reach cfg start j s → ∃ y ∈ R, cfg.beq s y = true)
    (hnogoal : ∀ j s, Reach cfg start j s → cfg.goalB s = false)
    (hfuel : R.length + 2 ≤ fuel) :
    (Search.plan cfg start fuel).outcome = Outcome.exhausted := by
  have hqreach : ∀ q ∈ (startLoopState start).queue,
      ∃ j t, Reach cfg start j t ∧ cfg.beq q.state t = true := by
    intro q hq
    rcases List.mem_singleton.mp hq with rfl
    exact ⟨0, start, Reach.refl, L.beq_refl _⟩
  cases hoc : (Search.plan cfg start fuel).outcome with
  | solved n =>
    exact absurd hoc (planLoop_no_solved L start hnogoal fuel _ hqreach n)
  | exhausted => rfl
  | outOfFuel =>
    exfalso
    have hlen := planLoop_outOfFuel_expanded fuel (startLoopState start) hoc
    have hpw : List.Pairwise (fun a b : S => cfg.beq a b = false)
        (Search.plan cfg start fuel).expanded :=
      planLoop_pairwise fuel (startLoopState start) rfl List.Pairwise.nil
    have hcov : ∀ x ∈ (Search.plan cfg start fuel).expanded,
        ∃ y ∈ R, cfg.beq x y = true := by
      intro x hx
      obtain ⟨j, t, hr, hxt⟩ := planLoop_exp_reach L start fuel (startLoopState start)
        hqreach (fun s hs => absurd hs (List.not_mem_nil _)) x hx
      obtain ⟨y, hy, hty⟩ := hfin j t hr
      exact ⟨y, hy, L.beq_trans _ _ _ hxt hty⟩
    have hle := beq_pigeonhole L _ R hpw hcov
    have hlen2 : 0 + fuel ≤ (Search.plan cfg start fuel).expanded.length := hlen
    omega

/-- Witness for C9 at the operatorless `Fin 3` fixture whose goal `2`
is unreachable from `0`. -/
theorem unreachable_goal_exhausts_witness :
    (Search.plan noOpCfg (0 : Fin 3) 3).outcome = Outcome.exhausted := by
  refine unreachable_goal_exhausts noOpCfg lawful_noOpCfg 0 [0] 3 ?_ ?_ (by decide)
  · intro j s hr
    obtain ⟨rfl, -⟩ := reach_ops_nil rfl j s hr
    exact ⟨0, List.mem_singleton.mpr rfl, by decide⟩
  · intro j s hr
    obtain ⟨rfl, -⟩ := reach_ops_nil rfl j s hr
    decide

/-- C10: `plan`'s first generation mutates the initial state object:
the seen-set membership test hashes it (freezing it) and it receives
visit marker `"1"`; afterwards setting any ordinary field on it fails
with the immutability error. -/
theorem plan_freezes_and_marks_initial_state (cfg : Cfg PyState)
    (hfr : cfg.freezeFn = PyState.freeze)
    (hmk : cfg.markFn = fun m s => s.set_visit_marker m)
    (s0 : PyState) (key : String) (v : Value)
    (h1 : key ≠ "__visitmarker") (h2 : key ≠ "__dict__") :
    pass1 cfg [⟨s0, []⟩] [] 0 = ([⟨(s0.freeze).set_visit_marker "1", []⟩], 1) ∧
      ((s0.freeze).set_visit_marker "1").is_frozen = true ∧
      ((s0.freeze).set_visit_marker "1").get_visit_marker = some (.vStr "1") ∧
      pySetattr ((s0.freeze).set_visit_marker "1") key v
        = .error .attributeError := by
  refine ⟨?_, ?_, ?_, ?_⟩
  · rw [pass1, if_neg (fun h => Bool.noConfusion h), pass1, hfr, hmk]
    rfl
  · rw [is_frozen_set_visit_marker, is_frozen_freeze]
  · rw [PyState.get_visit_marker]
    exact dget_dinsert_self _ _ _
  · exact pySetattr_frozen_error v
      (by rw [is_frozen_set_visit_marker, is_frozen_freeze]) h1 h2

/-- Witness for C10 at the counter scenario's start state. -/
theorem plan_freezes_and_marks_initial_state_witness :
    pass1 counterPlanner.toCfg [⟨counterStart, []⟩] [] 0
        = ([⟨(counterStart.freeze).set_visit_marker "1", []⟩], 1) ∧
      ((counterStart.freeze).set_visit_marker "1").is_frozen = true ∧
      ((counterStart.freeze).set_visit_marker "1").get_visit_marker
        = some (.vStr "1") ∧
      pySetattr ((counterStart.freeze).set_visit_marker "1") "counter" (.vInt 9)
        = .error .attributeError :=
  plan_freezes_and_marks_initial_state counterPlanner.toCfg rfl rfl
    counterStart "counter" (.vInt 9) (by decide) (by decide)

